import Mathlib

/-!
# Verification of the `dbms_bunjee` LSM storage core

Shallow embedding of the storage layer (`src/storage/{record,block,memtable,
sstable,lsm_engine}.rs`) and of the row codec
(`src/query/parser/insert.rs`, `src/query/engine.rs`), together with proofs
and refutations of the specification claims.

Modelling conventions:
* `u64` values (record ids, SST counters) are `Nat`; the only arithmetic
  performed on them by the code is `+ 1` on `next_sstable_id`, which we
  model with an explicit `% 2 ^ 64` wrap.
* Byte payloads are `List Nat` (each byte `< 256` where it matters).
* A `Block` is its record vector (`records : Vec<Record>` ⇒ `List Record`).
* An `SSTable` is the record list of its backing block.  File paths, lazy
  loading and file `mtime` are not modelled; SST file I/O is modelled as
  infallible.  WAL I/O failure is modelled by a `walBroken` flag on the
  engine state: when set, every WAL append/truncate returns an error,
  mirroring an I/O failure of the log file.
* Engine operations take the state and return the (possibly partially
  mutated, exactly as the Rust `&mut self` methods leave it) state together
  with an `Except Unit α` for `io::Result<α>`.
-/

namespace Bunjee

/-- `Record` from `src/storage/record.rs`: `{ id: u64, data: Vec<u8> }`. -/
structure Record where
  id : Nat
  data : List Nat
deriving Repr, DecidableEq

/-- A `Block` is its `records: Vec<Record>` field (`src/storage/block.rs`). -/
abbrev Block := List Record

/-- `Block::get`: `self.records.iter().find(|&record| record.id == id)`. -/
def Block.get (b : Block) (id : Nat) : Option Record :=
  b.find? (fun r => r.id == id)

/-- `Block::insert`.  The Rust body is
```
if self.get(record.id).is_some() {
    false;              // <- bare expression statement, has no effect
}
self.records.push(record);
true
```
The `false;` in the duplicate branch is a statement, not a `return`, so the
function unconditionally appends and returns `true`.  We keep the dead
branch as a discarded `let` to mirror the source shape. -/
def Block.insert (b : Block) (r : Record) : Block × Bool :=
  let _dead := if (Block.get b r.id).isSome then false else true
  (b ++ [r], true)

/-- `Block::update`: replaces the data of the first record whose id matches,
in place; returns whether a record was found. -/
def Block.update : Block → Nat → List Nat → Block × Bool
  | [], _, _ => ([], false)
  | r :: rest, id, newData =>
    if r.id == id then (⟨r.id, newData⟩ :: rest, true)
    else
      let res := Block.update rest id newData
      (r :: res.1, res.2)

/-- `Block::delete`: removes the first record whose id matches; returns
whether one was removed. -/
def Block.delete : Block → Nat → Block × Bool
  | [], _ => ([], false)
  | r :: rest, id =>
    if r.id == id then (rest, true)
    else
      let res := Block.delete rest id
      (r :: res.1, res.2)

/-- The id-comparison used by every `sort_by_key(|r| r.id)` in the code. -/
def recLE (a b : Record) : Prop := a.id ≤ b.id

instance : DecidableRel recLE := fun a b => inferInstanceAs (Decidable (a.id ≤ b.id))

instance : IsTotal Record recLE := ⟨fun a b => Nat.le_total a.id b.id⟩

instance : IsTrans Record recLE := ⟨fun _ _ _ h h' => Nat.le_trans h h'⟩

/-- Rust's `sort_by_key(|r| r.id)` is a stable sort; any stable sort
produces the same list, so we model it with stable insertion sort. -/
def sortById (l : List Record) : List Record := l.insertionSort recLE

/-- `MemTable` (`src/storage/memtable.rs`): a `Block` plus `max_size`.
The `index: BTreeMap<u64, bool>` field is write-only bookkeeping — no code
path reads it to make a decision — so it is not modelled. -/
structure MemTable where
  data : Block
  maxSize : Nat
deriving Repr, DecidableEq

/-- `MemTable::is_full`: `self.data.count() >= self.max_size`. -/
def MemTable.isFull (m : MemTable) : Bool := m.maxSize ≤ m.data.length

/-- `MemTable::insert`: refuse when full, otherwise delegate to
`Block::insert`. -/
def MemTable.insert (m : MemTable) (r : Record) : MemTable × Bool :=
  if m.isFull then (m, false)
  else
    let res := Block.insert m.data r
    ({ m with data := res.1 }, res.2)

/-- `MemTable::get` delegates to `Block::get`. -/
def MemTable.get (m : MemTable) (id : Nat) : Option Record := Block.get m.data id

/-- `MemTable::update` delegates to `Block::update`. -/
def MemTable.update (m : MemTable) (id : Nat) (newData : List Nat) : MemTable × Bool :=
  let res := Block.update m.data id newData
  ({ m with data := res.1 }, res.2)

/-- `MemTable::delete` delegates to `Block::delete` (plus index upkeep,
not modelled). -/
def MemTable.delete (m : MemTable) (id : Nat) : MemTable × Bool :=
  let res := Block.delete m.data id
  ({ m with data := res.1 }, res.2)

/-- `MemTable::flush_to_block`: re-inserts every record of `data` into a
fresh block (with the always-appending `Block::insert`, this copies the
record list in order) and clears the memtable. -/
def MemTable.flushToBlock (m : MemTable) : Block × MemTable :=
  (m.data.foldl (fun b r => (Block.insert b r).1) [], { m with data := [] })

/-- `MemTable::get_sorted_records`: `get_all` then stable
`sort_by_key(|r| r.id)`. -/
def MemTable.getSortedRecords (m : MemTable) : List Record := sortById m.data

/-- An `SSTable` is modelled by its loaded record list. -/
abbrev SST := List Record

/-- `SSTable::create_from_block`: clone the records, stable-sort by id,
re-insert into a fresh block (the always-appending `Block::insert` keeps
all of them, duplicates included), save to disk. -/
def SST.createFromBlock (b : Block) : SST :=
  (sortById b).foldl (fun blk r => (Block.insert blk r).1) []

/-- One probe step of Rust's `slice::binary_search_by_key`, fuel-indexed
(the fuel is an upper bound on `hi - lo`, so it never runs out on the
actual calls). -/
def binSearchAux (recs : List Record) (id : Nat) : Nat → Nat → Nat → Option Nat
  | _, _, 0 => none
  | lo, hi, fuel + 1 =>
    if lo < hi then
      match recs.get? (lo + (hi - lo) / 2) with
      | none => none
      | some r =>
        if r.id < id then binSearchAux recs id (lo + (hi - lo) / 2 + 1) hi fuel
        else if id < r.id then binSearchAux recs id lo (lo + (hi - lo) / 2) fuel
        else some (lo + (hi - lo) / 2)
    else none

/-- `records.binary_search_by_key(&id, |r| r.id)` on the whole slice. -/
def binSearch (recs : List Record) (id : Nat) : Option Nat :=
  binSearchAux recs id 0 recs.length recs.length

/-- `SSTable::get`: binary search on the record vector. -/
def SST.get (s : SST) (id : Nat) : Option Record :=
  match binSearch s id with
  | some i => s.get? i
  | none => none

/-- `Vec::dedup_by_key(|r| r.id)`: drop an element when its key equals the
key of the most recently retained element, i.e. keep the **first** record
of every run of equal ids. -/
def dedupGo (prev : Record) : List Record → List Record
  | [] => []
  | b :: rest => if b.id == prev.id then dedupGo prev rest else b :: dedupGo b rest

/-- `dedup_by_key` on a whole vector. -/
def dedupByKeyId : List Record → List Record
  | [] => []
  | a :: rest => a :: dedupGo a rest

/-- `SSTable::merge_with`: concatenate `self`'s records then `other`'s,
stable-sort by id, `dedup_by_key(|r| r.id)`, and build the output SST via
`create_from_block`. -/
def SST.mergeWith (a b : SST) : SST :=
  SST.createFromBlock (dedupByKeyId (sortById (a ++ b)))

/-- A WAL entry (`LogEntry` in `src/storage/writelog.rs`). -/
inductive WalEntry where
  | ins (r : Record)
  | upd (id : Nat) (data : List Nat)
  | del (id : Nat)
deriving Repr, DecidableEq

/-- `LSMEngine` state (`src/storage/lsm_engine.rs`): memtable, WAL,
SST list newest→oldest, `next_sstable_id`.  `walBroken` models an I/O
failure of the WAL file: every append or truncate on a broken WAL errors. -/
structure EngineState where
  memtable : MemTable
  wal : List WalEntry
  walBroken : Bool
  sstables : List SST
  nextSstId : Nat
deriving Repr, DecidableEq

/-- `WriteLog::log_*`: append one entry, or fail when the log is broken. -/
def walAppend (s : EngineState) (e : WalEntry) : Except Unit EngineState :=
  if s.walBroken then .error ()
  else .ok { s with wal := s.wal ++ [e] }

/-- `LSMEngine::compact_sstables`: pop the two oldest SSTs (tail of the
newest-first vector), merge them (`oldest.merge_with(second_oldest)`), push
the merged SST back at the tail, bump `next_sstable_id`.  (The best-effort
`fs::remove_file` calls touch only the filesystem.) -/
def compactSSTables (s : EngineState) : EngineState :=
  match s.sstables.reverse with
  | s1 :: s2 :: rest =>
      { s with
        sstables := (SST.mergeWith s1 s2 :: rest).reverse,
        nextSstId := (s.nextSstId + 1) % 2 ^ 64 }
  | _ => s

/-- `LSMEngine::flush_memtable`: no-op on an empty memtable; otherwise
flush the memtable to a block, create the SST, push it at the **front** of
the SST list, bump the id, truncate the WAL (`writelog.clear()?`, which
fails on a broken WAL *after* the SST was already added), then compact when
more than 4 SSTs remain. -/
def flushMemtable (s : EngineState) : EngineState × Except Unit Unit :=
  if s.memtable.data.isEmpty then (s, .ok ())
  else
    let fb := s.memtable.flushToBlock
    let sst := SST.createFromBlock fb.1
    let s1 := { s with
      memtable := fb.2,
      sstables := sst :: s.sstables,
      nextSstId := (s.nextSstId + 1) % 2 ^ 64 }
    if s1.walBroken then (s1, .error ())
    else
      let s2 := { s1 with wal := [] }
      if 4 < s2.sstables.length then (compactSSTables s2, .ok ())
      else (s2, .ok ())

/-- `LSMEngine::flush` just calls `flush_memtable`. -/
def LSMEngine.flush (s : EngineState) : EngineState × Except Unit Unit :=
  flushMemtable s

/-- `LSMEngine::insert`: WAL append first; then `memtable.insert`; on a
full memtable, `flush_memtable` and retry, a second refusal is an error. -/
def LSMEngine.insert (s : EngineState) (r : Record) : EngineState × Except Unit Unit :=
  match walAppend s (.ins r) with
  | .error _ => (s, .error ())
  | .ok s =>
    let res := s.memtable.insert r
    if res.2 then ({ s with memtable := res.1 }, .ok ())
    else
      match flushMemtable s with
      | (s, .error _) => (s, .error ())
      | (s, .ok _) =>
        let res := s.memtable.insert r
        if res.2 then ({ s with memtable := res.1 }, .ok ())
        else (s, .error ())

/-- `LSMEngine::update`: WAL append first; in-place memtable update when
the id is present there, otherwise insert `(id, data)` as a new record
(with the same flush-and-retry dance as `insert`).  Returns `Ok(true)` on
every successful path. -/
def LSMEngine.update (s : EngineState) (id : Nat) (newData : List Nat) :
    EngineState × Except Unit Bool :=
  match walAppend s (.upd id newData) with
  | .error _ => (s, .error ())
  | .ok s =>
    let ures := s.memtable.update id newData
    if ures.2 then ({ s with memtable := ures.1 }, .ok true)
    else
      let r : Record := ⟨id, newData⟩
      let res := s.memtable.insert r
      if res.2 then ({ s with memtable := res.1 }, .ok true)
      else
        match flushMemtable s with
        | (s, .error _) => (s, .error ())
        | (s, .ok _) =>
          let res := s.memtable.insert r
          if res.2 then ({ s with memtable := res.1 }, .ok true)
          else (s, .error ())

/-- `LSMEngine::delete`: WAL append first; then remove from the memtable
only, returning whether the memtable removal happened.  SSTs untouched. -/
def LSMEngine.delete (s : EngineState) (id : Nat) : EngineState × Except Unit Bool :=
  match walAppend s (.del id) with
  | .error _ => (s, .error ())
  | .ok s =>
    let res := s.memtable.delete id
    ({ s with memtable := res.1 }, .ok res.2)

/-- Lookup through the SST list, newest first, first hit wins. -/
def getFromSSTs : List SST → Nat → Option Record
  | [], _ => none
  | sst :: rest, id =>
    match SST.get sst id with
    | some r => some r
    | none => getFromSSTs rest id

/-- `LSMEngine::get`: memtable first, then SSTs newest→oldest. -/
def LSMEngine.get (s : EngineState) (id : Nat) : Option Record :=
  match s.memtable.get id with
  | some r => some r
  | none => getFromSSTs s.sstables id

/-- One `HashMap::insert` on the model association list: replace the
binding if the key exists, else append. -/
def upsert : List (Nat × Record) → Nat → Record → List (Nat × Record)
  | [], k, v => [(k, v)]
  | (k', v') :: rest, k, v =>
    if k' == k then (k, v) :: rest else (k', v') :: upsert rest k v

/-- `LSMEngine::get_all_records`: fill a `HashMap<u64, Record>` from the
SSTs oldest→newest, then from `memtable.get_sorted_records()`, finally
collect the values and `sort_by_key(|r| r.id)`.  The map is modelled as an
association list with `upsert`; since its keys are distinct, the final sort
makes the hash map's arbitrary iteration order irrelevant. -/
def LSMEngine.getAllRecords (s : EngineState) : List Record :=
  let seq := s.sstables.reverse.flatten ++ s.memtable.getSortedRecords
  let m := seq.foldl (fun m r => upsert m r.id r) []
  sortById (m.map Prod.snd)

/-- `EngineStats` (`src/storage/lsm_engine.rs`). -/
structure EngineStats where
  memtableSize : Nat
  sstableCount : Nat
  totalRecords : Nat
deriving Repr, DecidableEq

/-- `LSMEngine::stats`: start from the memtable size and add every SST's
record count. -/
def LSMEngine.stats (s : EngineState) : EngineStats :=
  { memtableSize := s.memtable.data.length
    sstableCount := s.sstables.length
    totalRecords := s.sstables.foldl (fun acc sst => acc + sst.length) s.memtable.data.length }

/-- `LSMEngine::new` on a fresh directory: empty memtable of the given
bound, no SSTs, empty WAL, `next_sstable_id = 1`. -/
def freshEngine (memtableSize : Nat) : EngineState :=
  { memtable := { data := [], maxSize := memtableSize }
    wal := []
    walBroken := false
    sstables := []
    nextSstId := 1 }

/-- Spec-side helper: the record for `k` written **latest** in a record
sequence (later entries win); `none` when `k` never occurs. -/
def newestIn : List Record → Nat → Option Record
  | [], _ => none
  | r :: rest, k =>
    match newestIn rest k with
    | some x => some x
    | none => if r.id == k then some r else none

/-- Spec-side description of the live value of an id: the memtable version
when the id is present in the memtable, otherwise the winner of overlaying
the SSTs from oldest to newest (later overwrites win). -/
def liveValue (s : EngineState) (k : Nat) : Option Record :=
  match newestIn s.memtable.data k with
  | some r => some r
  | none => newestIn s.sstables.reverse.flatten k

/-- Lookup in the model association list for `HashMap<u64, Record>`. -/
def mapFind (m : List (Nat × Record)) (k : Nat) : Option Record :=
  (m.find? (fun p => p.1 == k)).map Prod.snd

/-- Well-formedness of the model hash map: distinct keys, and every value
is stored under its own id. -/
def MapWF (m : List (Nat × Record)) : Prop :=
  m.Pairwise (fun p q => p.1 ≠ q.1) ∧ ∀ p ∈ m, p.2.id = p.1

/-! ## Row codec (`src/query/parser/insert.rs` encoding,
`src/query/engine.rs` `parse_record_data` decoding)

Values are the UTF-8 byte lists of the SQL token strings.  `'` and `"` are
single bytes in UTF-8, so `trim_matches` over them is byte-level; the
decoder's `String::from_utf8_lossy` is the identity on the (valid UTF-8)
bytes the encoder stores, so it is modelled as the byte list itself. -/

/-- `ColumnType` from `src/metadata/column.rs`. -/
inductive ColumnType where
  | integer
  | float
  | varchar (maxLen : Nat)
  | boolean
  | timestamp
deriving Repr, DecidableEq

/-- The quote bytes of `trim_matches(|c| c == '\'' || c == '"')`. -/
def isQuote (b : Nat) : Bool := b == 39 || b == 34

def trimLeadingQuotes : List Nat → List Nat
  | [] => []
  | b :: rest => if isQuote b then trimLeadingQuotes rest else b :: rest

/-- `str::trim_matches` with the quote pattern: strip quote bytes from both
ends. -/
def trimQuotes (v : List Nat) : List Nat :=
  (trimLeadingQuotes ((trimLeadingQuotes v).reverse)).reverse

/-- ASCII lowercasing, modelling `str::to_lowercase` on the byte values
relevant to the `"true"`/`"false"` comparison. -/
def asciiLower (v : List Nat) : List Nat :=
  v.map (fun b => if 65 ≤ b ∧ b ≤ 90 then b + 32 else b)

/-- One decimal digit byte. -/
def digitVal (b : Nat) : Option Nat :=
  if 48 ≤ b ∧ b ≤ 57 then some (b - 48) else none

/-- All-digit parse of a non-empty byte string. -/
def parseNatDigits (l : List Nat) : Option Nat :=
  match l with
  | [] => none
  | _ =>
    l.foldl (fun acc b =>
      match acc, digitVal b with
      | some a, some d => some (a * 10 + d)
      | _, _ => none) (some 0)

/-- `i64::from_str`: optional sign, decimal digits, value within the i64
range. -/
def parseI64 (v : List Nat) : Option Int :=
  match v with
  | 43 :: rest =>
    match parseNatDigits rest with
    | some n => if n < 2 ^ 63 then some (n : Int) else none
    | none => none
  | 45 :: rest =>
    match parseNatDigits rest with
    | some n => if n ≤ 2 ^ 63 then some (-(n : Int)) else none
    | none => none
  | _ =>
    match parseNatDigits v with
    | some n => if n < 2 ^ 63 then some (n : Int) else none
    | none => none

/-- Big-endian encoding of `n` into `k` bytes (`to_be_bytes` after the
call sites' `as u32` / two's-complement conversions). -/
def natToBE : Nat → Nat → List Nat
  | 0, _ => []
  | k + 1, n => natToBE k (n / 256) ++ [n % 256]

/-- `from_be_bytes` of a byte slice. -/
def bytesToBENat (l : List Nat) : Nat := l.foldl (fun acc b => acc * 256 + b) 0

/-- `i64::to_be_bytes`: two's-complement big-endian. -/
def i64ToBytes (v : Int) : List Nat := natToBE 8 (v % (2 ^ 64 : Int)).toNat

/-- `i64::from_be_bytes`. -/
def i64FromBytes (l : List Nat) : Int :=
  if bytesToBENat l < 2 ^ 63 then (bytesToBENat l : Int)
  else (bytesToBENat l : Int) - 2 ^ 64

/-- Decimal digits of `n`, fuel-indexed (`fuel ≥ n` suffices). -/
def natToDigitsGo : Nat → Nat → List Nat → List Nat
  | 0, _, acc => acc
  | fuel + 1, n, acc =>
    if n = 0 then acc else natToDigitsGo fuel (n / 10) ((n % 10 + 48) :: acc)

/-- Decimal rendering of a natural number. -/
def natToDigits (n : Nat) : List Nat :=
  if n = 0 then [48] else natToDigitsGo n n []

/-- `i64`'s `to_string`. -/
def renderI64 (v : Int) : List Nat :=
  if v < 0 then 45 :: natToDigits v.natAbs else natToDigits v.natAbs

/-- `f64` values are modelled opaquely by the 64-bit pattern produced by
`f64::from_str` and consumed by `to_string`.  Every codec theorem is
quantified over an arbitrary such model, so nothing about floating-point
semantics is assumed beyond the bit width. -/
structure FloatModel where
  parse : List Nat → Option Nat
  render : Nat → List Nat
  parse_lt : ∀ v n, parse v = some n → n < 2 ^ 64

/-- A degenerate float model for concrete float-free test rows. -/
def fmTrivial : FloatModel where
  parse := fun _ => none
  render := fun _ => []
  parse_lt := by intro v n h; exact absurd h (by simp)

/-- `Column::validate_value` (`src/metadata/column.rs`). -/
def validateValue (fm : FloatModel) (v : List Nat) : ColumnType → Bool
  | .integer => (parseI64 v).isSome
  | .float => (fm.parse v).isSome
  | .varchar maxLen => (trimQuotes v).length ≤ maxLen
  | .boolean =>
    asciiLower (trimQuotes v) == [116, 114, 117, 101]
      || asciiLower (trimQuotes v) == [102, 97, 108, 115, 101]
  | .timestamp => (parseI64 v).isSome

/-- `InsertParser::convert_value_to_bytes`: per-column encoding, `none` for
the `TypeMismatch` error paths. -/
def convertValueToBytes (fm : FloatModel) (v : List Nat) : ColumnType → Option (List Nat)
  | .integer => (parseI64 v).map i64ToBytes
  | .float => (fm.parse v).map (natToBE 8)
  | .varchar maxLen =>
    if (trimQuotes v).length ≤ maxLen then
      some (natToBE 4 ((trimQuotes v).length % 2 ^ 32) ++ trimQuotes v)
    else none
  | .boolean =>
    if asciiLower (trimQuotes v) == [116, 114, 117, 101] then some [1]
    else if asciiLower (trimQuotes v) == [102, 97, 108, 115, 101] then some [0]
    else none
  | .timestamp => (parseI64 v).map i64ToBytes

/-- Row payload: concatenation of the per-column encodings in schema
order. -/
def encodeRow (fm : FloatModel) : List ColumnType → List (List Nat) → Option (List Nat)
  | [], [] => some []
  | t :: ts, v :: vs =>
    match convertValueToBytes fm v t, encodeRow fm ts vs with
    | some e, some rest => some (e ++ rest)
    | _, _ => none
  | _, _ => none

/-- One column of `parse_record_data` (the decoding closure in
`QueryEngine::execute_join_with_records`): the rendered value and the
advanced offset, with the code's shortfall tolerance. -/
def decodeColumn (fm : FloatModel) (data : List Nat) (offset : Nat) :
    ColumnType → List Nat × Nat
  | .integer =>
    if offset + 8 ≤ data.length then
      (renderI64 (i64FromBytes ((data.drop offset).take 8)), offset + 8)
    else ([48], offset + 8)
  | .float =>
    if offset + 8 ≤ data.length then
      (fm.render (bytesToBENat ((data.drop offset).take 8)), offset + 8)
    else ([48, 46, 48], offset + 8)
  | .varchar _ =>
    if offset + 4 ≤ data.length then
      if offset + 4 + bytesToBENat ((data.drop offset).take 4) ≤ data.length then
        ((data.drop (offset + 4)).take (bytesToBENat ((data.drop offset).take 4)),
          offset + 4 + bytesToBENat ((data.drop offset).take 4))
      else ([], offset + 4 + bytesToBENat ((data.drop offset).take 4))
    else ([], offset + 4)
  | .boolean =>
    (if offset < data.length ∧ data.get? offset = some 1 then [116, 114, 117, 101]
     else [102, 97, 108, 115, 101], offset + 1)
  | .timestamp =>
    if offset + 8 ≤ data.length then
      (renderI64 (i64FromBytes ((data.drop offset).take 8)), offset + 8)
    else ([48], offset + 8)

/-- `parse_record_data` over a whole schema, threading the offset. -/
def decodeRow (fm : FloatModel) (data : List Nat) (offset : Nat) :
    List ColumnType → List (List Nat)
  | [] => []
  | t :: ts =>
    (decodeColumn fm data offset t).1 ::
      decodeRow fm data (decodeColumn fm data offset t).2 ts

/-- Every value satisfies its column's `validate_value`. -/
def rowValid (fm : FloatModel) : List ColumnType → List (List Nat) → Bool
  | [], [] => true
  | t :: ts, v :: vs => validateValue fm v t && rowValid fm ts vs
  | _, _ => false

/-- Every varchar value is shorter than 2^32 bytes after quote-stripping
(otherwise the encoder's `len as u32` truncates). -/
def varcharSmall : List ColumnType → List (List Nat) → Bool
  | [], [] => true
  | ColumnType.varchar _ :: ts, v :: vs =>
    decide ((trimQuotes v).length < 2 ^ 32) && varcharSmall ts vs
  | _ :: ts, _ :: vs => varcharSmall ts vs
  | _, _ => false

/-- Spec-side canonical form of a value under its column type: quotes
stripped (varchar), quotes stripped and lowercased (boolean), numeric
values re-rendered from their parsed form. -/
def canonValue (fm : FloatModel) (v : List Nat) : ColumnType → List Nat
  | .integer =>
    match parseI64 v with
    | some n => renderI64 n
    | none => v
  | .float =>
    match fm.parse v with
    | some bits => fm.render bits
    | none => v
  | .varchar _ => trimQuotes v
  | .boolean => asciiLower (trimQuotes v)
  | .timestamp =>
    match parseI64 v with
    | some n => renderI64 n
    | none => v

end Bunjee

namespace Bunjee

/-! ## Sorting lemmas -/

theorem sortById_perm (l : List Record) : (sortById l).Perm l :=
  List.perm_insertionSort recLE l

theorem sortById_sorted (l : List Record) : (sortById l).Pairwise recLE :=
  List.sorted_insertionSort recLE l

theorem filter_orderedInsert (k : Nat) (x : Record) (l : List Record) :
    (l.orderedInsert recLE x).filter (fun r => r.id == k)
      = if x.id = k then x :: l.filter (fun r => r.id == k)
        else l.filter (fun r => r.id == k) := by
  induction l with
  | nil =>
    by_cases h : x.id = k <;> simp [List.orderedInsert, List.filter_cons, h]
  | cons b t ih =>
    by_cases hxb : recLE x b
    · by_cases h : x.id = k <;>
        simp [List.orderedInsert, hxb, List.filter_cons, h]
    · have hbk : b.id < x.id := by
        simpa [recLE, Nat.not_le] using hxb
      by_cases h : x.id = k
      · have hbne : ¬ (b.id = k) := by omega
        simp [List.orderedInsert, hxb, List.filter_cons, ih, h, hbne]
      · by_cases hb : b.id = k <;>
          simp [List.orderedInsert, hxb, List.filter_cons, ih, h, hb]

theorem filter_sortById (k : Nat) (l : List Record) :
    (sortById l).filter (fun r => r.id == k) = l.filter (fun r => r.id == k) := by
  induction l with
  | nil => rfl
  | cons a t ih =>
    show (List.orderedInsert recLE a (sortById t)).filter _ = _
    rw [filter_orderedInsert]
    by_cases h : a.id = k <;> simp [h, List.filter_cons, ih]

/-! ## The always-append `Block::insert` copy lemmas -/

theorem foldl_insert_eq_append (init : Block) (l : List Record) :
    l.foldl (fun b r => (Block.insert b r).1) init = init ++ l := by
  induction l generalizing init with
  | nil => simp
  | cons a t ih => simpa [Block.insert] using ih (init ++ [a])

theorem createFromBlock_eq (b : Block) : SST.createFromBlock b = sortById b := by
  simp [SST.createFromBlock, foldl_insert_eq_append]

theorem flushToBlock_eq (m : MemTable) :
    m.flushToBlock = (m.data, { m with data := [] }) := by
  simp [MemTable.flushToBlock, foldl_insert_eq_append]

/-! ## `newestIn` lemmas -/

theorem newestIn_id {l : List Record} {k : Nat} {r : Record}
    (h : newestIn l k = some r) : r.id = k := by
  induction l with
  | nil => simp [newestIn] at h
  | cons a t ih =>
    simp only [newestIn] at h
    cases ht : newestIn t k with
    | some x => rw [ht] at h; exact ih (ht.trans h)
    | none =>
      rw [ht] at h
      by_cases ha : a.id == k
      · simp [ha] at h; subst h; simpa using ha
      · simp [ha] at h

theorem newestIn_eq_none {l : List Record} {k : Nat} :
    newestIn l k = none ↔ ∀ r ∈ l, r.id ≠ k := by
  induction l with
  | nil => simp [newestIn]
  | cons a t ih =>
    simp only [newestIn]
    cases ht : newestIn t k with
    | some x =>
      simp only [reduceCtorEq, false_iff]
      intro hall
      have : ∀ r ∈ t, r.id ≠ k := fun r hr => hall r (List.mem_cons_of_mem a hr)
      rw [← ih] at this
      simp [this] at ht
    | none =>
      rw [ht] at ih
      constructor
      · intro h r hr
        rcases List.mem_cons.mp hr with h1 | h2
        · subst h1
          by_cases ha : r.id = k
          · simp [ha] at h
          · exact ha
        · exact (ih.mp rfl) r h2
      · intro hall
        have : a.id ≠ k := hall a (List.mem_cons_self a t)
        simp [this]

theorem newestIn_eq_filter (l : List Record) (k : Nat) :
    newestIn l k = ((l.filter (fun r => r.id == k)).reverse).head? := by
  induction l with
  | nil => rfl
  | cons a t ih =>
    simp only [newestIn, List.filter_cons]
    cases ht : newestIn t k with
    | some x =>
      rw [ht] at ih
      by_cases ha : a.id == k
      · simp only [ha, if_pos, List.reverse_cons]
        rw [List.head?_append, ← ih]
        simp
      · simp [ha, ← ih]
    | none =>
      rw [ht] at ih
      have hfil : (t.filter (fun r => r.id == k)).reverse = [] := by
        cases hc : (t.filter (fun r => r.id == k)).reverse with
        | nil => rfl
        | cons y ys => rw [hc] at ih; simp at ih
      by_cases ha : a.id == k
      · simp [ha, List.reverse_cons, hfil]
      · simp [ha, hfil]

theorem newestIn_sortById (l : List Record) (k : Nat) :
    newestIn (sortById l) k = newestIn l k := by
  rw [newestIn_eq_filter, newestIn_eq_filter, filter_sortById]

theorem newestIn_append (l₁ l₂ : List Record) (k : Nat) :
    newestIn (l₁ ++ l₂) k
      = match newestIn l₂ k with
        | some x => some x
        | none => newestIn l₁ k := by
  induction l₁ with
  | nil => cases h : newestIn l₂ k <;> simp [newestIn, h]
  | cons a t ih =>
    cases h : newestIn l₂ k <;> cases h' : newestIn t k <;>
      simp [newestIn, ih, h, h']

end Bunjee

namespace Bunjee

/-! ## Model hash-map lemmas -/

theorem mapFind_cons (k₀ : Nat) (v₀ : Record) (t : List (Nat × Record)) (k' : Nat) :
    mapFind ((k₀, v₀) :: t) k' = if k₀ = k' then some v₀ else mapFind t k' := by
  by_cases h : k₀ = k' <;> simp [mapFind, List.find?_cons, h]

theorem upsert_cons (k₀ : Nat) (v₀ : Record) (t : List (Nat × Record)) (k : Nat) (v : Record) :
    upsert ((k₀, v₀) :: t) k v
      = if k₀ = k then (k, v) :: t else (k₀, v₀) :: upsert t k v := by
  by_cases h : k₀ = k <;> simp [upsert, h]

theorem mapFind_upsert (m : List (Nat × Record)) (k : Nat) (v : Record) (k' : Nat) :
    mapFind (upsert m k v) k' = if k' = k then some v else mapFind m k' := by
  induction m with
  | nil =>
    by_cases h : k' = k
    · simp [upsert, mapFind, List.find?_cons, h]
    · have : ¬ (k = k') := fun he => h he.symm
      simp [upsert, mapFind, List.find?_cons, this, h]
  | cons p t ih =>
    obtain ⟨k₀, v₀⟩ := p
    rw [upsert_cons]
    by_cases h0 : k₀ = k
    · subst h0
      rw [if_pos rfl, mapFind_cons, mapFind_cons]
      by_cases h : k₀ = k'
      · simp [h]
      · have : ¬ (k' = k₀) := fun he => h he.symm
        simp [h, this]
    · rw [if_neg h0, mapFind_cons, mapFind_cons, ih]
      by_cases h2 : k₀ = k'
      · have : ¬ (k' = k) := fun he => h0 (h2.trans he)
        simp [h2, this]
      · simp [h2]

theorem mapFind_foldl (seq : List Record) (m : List (Nat × Record)) (k : Nat) :
    mapFind (seq.foldl (fun m r => upsert m r.id r) m) k
      = match newestIn seq k with
        | some x => some x
        | none => mapFind m k := by
  induction seq generalizing m with
  | nil => simp [newestIn]
  | cons r t ih =>
    simp only [List.foldl_cons, newestIn, ih]
    cases h : newestIn t k with
    | some x => simp
    | none =>
      simp only [mapFind_upsert]
      by_cases hk : k = r.id
      · simp [hk]
      · have hne : ¬ ((r.id == k) = true) := by
          simpa using fun h' => hk h'.symm
        simp [hk, hne]

theorem mem_upsert_elim {m : List (Nat × Record)} {k : Nat} {v : Record} {q : Nat × Record}
    (h : q ∈ upsert m k v) : q ∈ m ∨ q = (k, v) := by
  induction m with
  | nil => simpa [upsert] using h
  | cons p t ih =>
    obtain ⟨k₀, v₀⟩ := p
    rw [upsert_cons] at h
    by_cases h0 : k₀ = k
    · rw [if_pos h0] at h
      rcases List.mem_cons.mp h with h1 | h2
      · right; exact h1
      · left; exact List.mem_cons_of_mem _ h2
    · rw [if_neg h0] at h
      rcases List.mem_cons.mp h with h1 | h2
      · left; exact h1 ▸ List.mem_cons_self _ _
      · rcases ih h2 with h3 | h4
        · left; exact List.mem_cons_of_mem _ h3
        · right; exact h4

theorem mapWF_tail {p : Nat × Record} {t : List (Nat × Record)}
    (h : MapWF (p :: t)) : MapWF t :=
  ⟨(List.pairwise_cons.mp h.1).2, fun q hq => h.2 q (List.mem_cons_of_mem p hq)⟩

theorem mapWF_upsert {m : List (Nat × Record)} (h : MapWF m) (k : Nat) (v : Record)
    (hv : v.id = k) : MapWF (Bunjee.upsert m k v) := by
  induction m with
  | nil =>
    refine ⟨by simp [Bunjee.upsert], ?_⟩
    intro p hp
    simp only [Bunjee.upsert, List.mem_singleton] at hp
    simp [hp, hv]
  | cons p t ih =>
    obtain ⟨k₀, v₀⟩ := p
    obtain ⟨hk₀, hpt⟩ := List.pairwise_cons.mp h.1
    rw [upsert_cons]
    by_cases h0 : k₀ = k
    · subst h0
      rw [if_pos rfl]
      refine ⟨List.pairwise_cons.mpr ⟨hk₀, hpt⟩, ?_⟩
      intro q hq
      rcases List.mem_cons.mp hq with h1 | h2
      · simp [h1, hv]
      · exact h.2 q (List.mem_cons_of_mem _ h2)
    · rw [if_neg h0]
      have hwf := ih (mapWF_tail h)
      refine ⟨List.pairwise_cons.mpr ⟨?_, hwf.1⟩, ?_⟩
      · intro q hq
        rcases mem_upsert_elim hq with h1 | h2
        · exact hk₀ q h1
        · simpa [h2] using h0
      · intro q hq
        rcases List.mem_cons.mp hq with h1 | h2
        · exact h.2 q (by simp [h1])
        · exact hwf.2 q h2

theorem mapWF_foldl {seq : List Record} {m : List (Nat × Record)} (h : MapWF m) :
    MapWF (seq.foldl (fun m r => upsert m r.id r) m) := by
  induction seq generalizing m with
  | nil => exact h
  | cons r t ih => exact ih (mapWF_upsert h r.id r rfl)

theorem mapFind_eq_some_iff_mem {m : List (Nat × Record)} (h : MapWF m)
    {k : Nat} {r : Record} : mapFind m k = some r ↔ (k, r) ∈ m := by
  constructor
  · intro hf
    simp only [mapFind, Option.map_eq_some'] at hf
    obtain ⟨p, hp, hpe⟩ := hf
    have hmem := List.mem_of_find?_eq_some hp
    have hkey : p.1 = k := by simpa using List.find?_some hp
    have : p = (k, r) := by
      obtain ⟨a, b⟩ := p
      simp only at hkey hpe
      simp [hkey, hpe]
    exact this ▸ hmem
  · intro hm
    induction m with
    | nil => simp at hm
    | cons p t ih =>
      obtain ⟨k₀, v₀⟩ := p
      rcases List.mem_cons.mp hm with h1 | h2
      · injection h1 with hk hv
        rw [mapFind_cons, if_pos hk.symm, hv]
      · have hne : ¬ (k₀ = k) := by
          intro he
          exact (List.pairwise_cons.mp h.1).1 (k, r) h2 (by simpa using he)
        rw [mapFind_cons, if_neg hne]
        exact ih (mapWF_tail h) h2

theorem mem_values_iff {m : List (Nat × Record)} (h : MapWF m) {r : Record} :
    r ∈ m.map Prod.snd ↔ (r.id, r) ∈ m := by
  constructor
  · intro hr
    obtain ⟨p, hp, hpe⟩ := List.mem_map.mp hr
    have hid : p.2.id = p.1 := h.2 p hp
    have : p = (r.id, r) := by
      obtain ⟨a, b⟩ := p
      simp only at hpe hid
      simp [← hpe, ← hid]
    exact this ▸ hp
  · intro hm
    exact List.mem_map.mpr ⟨(r.id, r), hm, rfl⟩

end Bunjee

namespace Bunjee

/-! ## `get_all_records` characterization -/

theorem liveValue_eq_newestIn (s : EngineState) (k : Nat) :
    liveValue s k
      = newestIn (s.sstables.reverse.flatten ++ s.memtable.getSortedRecords) k := by
  rw [newestIn_append]
  unfold liveValue MemTable.getSortedRecords
  rw [newestIn_sortById]

theorem mapFind_engineFold (s : EngineState) (k : Nat) :
    mapFind ((s.sstables.reverse.flatten ++ s.memtable.getSortedRecords).foldl
        (fun m r => upsert m r.id r) []) k
      = newestIn (s.sstables.reverse.flatten ++ s.memtable.getSortedRecords) k := by
  rw [mapFind_foldl]
  cases h : newestIn (s.sstables.reverse.flatten ++ s.memtable.getSortedRecords) k <;>
    simp [mapFind]

theorem engineFold_wf (s : EngineState) :
    MapWF ((s.sstables.reverse.flatten ++ s.memtable.getSortedRecords).foldl
      (fun m r => upsert m r.id r) []) :=
  mapWF_foldl ⟨List.Pairwise.nil, by simp⟩

theorem getAllRecords_mem_iff (s : EngineState) (k : Nat) (r : Record) :
    (r ∈ LSMEngine.getAllRecords s ∧ r.id = k) ↔ liveValue s k = some r := by
  have hwf := engineFold_wf s
  rw [liveValue_eq_newestIn, ← mapFind_engineFold]
  unfold LSMEngine.getAllRecords
  constructor
  · rintro ⟨hmem, hid⟩
    have h1 : r ∈ (((s.sstables.reverse.flatten ++ s.memtable.getSortedRecords).foldl
        (fun m r => upsert m r.id r) []).map Prod.snd) :=
      (sortById_perm _).mem_iff.mp hmem
    have h2 := (mem_values_iff hwf).mp h1
    rw [← hid]
    exact (mapFind_eq_some_iff_mem hwf).mpr h2
  · intro h
    have hid : r.id = k := by
      have := (mapFind_eq_some_iff_mem hwf).mp h
      exact hwf.2 (k, r) this
    refine ⟨?_, hid⟩
    have h2 := (mapFind_eq_some_iff_mem hwf).mp h
    rw [← hid] at h2
    have h1 := (mem_values_iff hwf).mpr h2
    exact (sortById_perm _).mem_iff.mpr h1

theorem getAllRecords_strictSorted (s : EngineState) :
    (LSMEngine.getAllRecords s).Pairwise (fun a b => a.id < b.id) := by
  have hwf := engineFold_wf s
  unfold LSMEngine.getAllRecords
  dsimp only
  have hsorted := sortById_sorted (((s.sstables.reverse.flatten ++
    s.memtable.getSortedRecords).foldl (fun m r => upsert m r.id r) []).map Prod.snd)
  have hne : ((((s.sstables.reverse.flatten ++ s.memtable.getSortedRecords).foldl
      (fun m r => upsert m r.id r) []).map Prod.snd)).Pairwise
        (fun a b => a.id ≠ b.id) := by
    rw [List.pairwise_map]
    refine List.Pairwise.imp_of_mem ?_ hwf.1
    intro p q hp hq hne
    rw [hwf.2 p hp, hwf.2 q hq]
    exact hne
  have hsymm : Symmetric (fun a b : Record => a.id ≠ b.id) := fun a b h => h.symm
  have hne' := hne.perm (sortById_perm _).symm @hsymm
  exact (hsorted.and hne').imp (fun h => Nat.lt_of_le_of_ne h.1 h.2)

end Bunjee

namespace Bunjee

theorem stats_foldl_length (l : List SST) (n : Nat) :
    l.foldl (fun acc sst => acc + sst.length) n = n + l.flatten.length := by
  induction l generalizing n with
  | nil => simp
  | cons a t ih => simp [ih, Nat.add_assoc]

/-! ## Claim theorems -/

/-- C1 (code bug evaluation).  The claim says that after inserting id 1
with payload `[1]` and then id 1 again with payload `[2]` — both returning
success — `get 1` yields the most recent payload `[2]`.  On the code both
inserts succeed, yet `get 1` returns the *first* payload `[1]`: the broken
`Block::insert` appends the duplicate and `Block::get` returns the first
match. -/
theorem c1_duplicate_insert_get_returns_first_payload :
    (LSMEngine.insert (freshEngine 10) ⟨1, [1]⟩).2 = .ok () ∧
    (LSMEngine.insert (LSMEngine.insert (freshEngine 10) ⟨1, [1]⟩).1 ⟨1, [2]⟩).2 = .ok () ∧
    LSMEngine.get (LSMEngine.insert (LSMEngine.insert (freshEngine 10) ⟨1, [1]⟩).1 ⟨1, [2]⟩).1 1
      = some ⟨1, [1]⟩ ∧
    (⟨1, [1]⟩ : Record) ≠ ⟨1, [2]⟩ :=
  ⟨rfl, rfl, rfl, by decide⟩

/-- C2 (code bug evaluation).  The claim (and `merge_with`'s own comment,
"keeping the latest version") says that when an id occurs in both inputs
the **later** occurrence of the stable sort of `A ++ B` — B's record —
survives.  `Vec::dedup_by_key` keeps the **first** element of each run, so
A's record survives instead. -/
theorem c2_merge_keeps_first_occurrence :
    SST.mergeWith [⟨1, [10]⟩] [⟨1, [20]⟩] = [⟨1, [10]⟩] ∧
    (⟨1, [10]⟩ : Record) ≠ ⟨1, [20]⟩ :=
  ⟨rfl, by decide⟩

/-- C3 (code bug evaluation).  The claim says `Block::insert` of a
duplicate id leaves the block unchanged and returns `false`.  The code's
duplicate branch is the no-effect statement `false;`, so the insert
appends the duplicate and returns `true`. -/
theorem c3_block_insert_appends_duplicate :
    Block.get [⟨1, [1]⟩] 1 = some ⟨1, [1]⟩ ∧
    Block.insert [⟨1, [1]⟩] ⟨1, [2]⟩ = ([⟨1, [1]⟩, ⟨1, [2]⟩], true) :=
  ⟨rfl, rfl⟩

/-- C4 (code bug evaluation).  The claim says every SST the engine builds
is strictly sorted with at most one record per id.  Flushing a memtable
that holds two physical records with id 1 (possible because of the broken
`Block::insert`) produces an SST with two records of id 1. -/
theorem c4_flush_produces_duplicate_id_sst :
    (LSMEngine.flush (LSMEngine.insert (LSMEngine.insert (freshEngine 10) ⟨1, [1]⟩).1
        ⟨1, [2]⟩).1).1.sstables = [[⟨1, [1]⟩, ⟨1, [2]⟩]] ∧
    ¬ ([⟨1, [1]⟩, ⟨1, [2]⟩] : List Record).Pairwise (fun a b => a.id < b.id) ∧
    ([⟨1, [1]⟩, ⟨1, [2]⟩] : List Record).countP (fun r => r.id == 1) = 2 :=
  ⟨rfl, by decide, by decide⟩

/-- C8: when the WAL append step fails, `insert`, `update` and `delete`
propagate the error and leave the in-memory engine state (memtable, SST
list, `next_sstable_id` — indeed the whole state) unchanged. -/
theorem c8_wal_failure_propagates_state_unchanged (s : EngineState) (r : Record)
    (id : Nat) (d : List Nat) (h : s.walBroken = true) :
    LSMEngine.insert s r = (s, .error ()) ∧
    LSMEngine.update s id d = (s, .error ()) ∧
    LSMEngine.delete s id = (s, .error ()) := by
  refine ⟨?_, ?_, ?_⟩ <;>
    simp [LSMEngine.insert, LSMEngine.update, LSMEngine.delete, walAppend, h]

/-- Witness for C8 at a concrete broken-WAL state. -/
theorem c8_wal_failure_witness :
    LSMEngine.insert { freshEngine 4 with walBroken := true } ⟨1, [2]⟩
      = ({ freshEngine 4 with walBroken := true }, .error ()) ∧
    LSMEngine.update { freshEngine 4 with walBroken := true } 1 [3]
      = ({ freshEngine 4 with walBroken := true }, .error ()) ∧
    LSMEngine.delete { freshEngine 4 with walBroken := true } 1
      = ({ freshEngine 4 with walBroken := true }, .error ()) :=
  c8_wal_failure_propagates_state_unchanged _ ⟨1, [2]⟩ 1 [3] rfl

/-- C10: `stats().total_records` is the sum of the memtable's physical
record count and every SST's physical record count (each shadowed copy
counted once per copy); on a state holding one memtable copy and one
shadowed SST copy of id 1 it reports 2 records while `get` observes only
the single id 1. -/
theorem c10_stats_counts_physical_records :
    (∀ s : EngineState,
        (LSMEngine.stats s).totalRecords
          = s.memtable.data.length + s.sstables.flatten.length) ∧
    (LSMEngine.stats
        { memtable := { data := [⟨1, [0]⟩], maxSize := 10 }, wal := [],
          walBroken := false, sstables := [[⟨1, [1]⟩]],
          nextSstId := 2 }).totalRecords = 2 ∧
    ∀ k : Nat,
      (LSMEngine.get
          { memtable := { data := [⟨1, [0]⟩], maxSize := 10 }, wal := [],
            walBroken := false, sstables := [[⟨1, [1]⟩]],
            nextSstId := 2 } k).isSome ↔ k = 1 := by
  refine ⟨?_, rfl, ?_⟩
  · intro s
    simp [LSMEngine.stats, stats_foldl_length]
  · intro k
    by_cases h : k = 1
    · subst h
      simp [LSMEngine.get, MemTable.get, Block.get, List.find?]
    · have h1 : (1 == k) = false := by simpa using fun he => h he.symm
      rcases Nat.lt_trichotomy k 1 with hlt | heq | hgt
      · have hk0 : k = 0 := by omega
        subst hk0
        simp [LSMEngine.get, MemTable.get, Block.get, List.find?, getFromSSTs,
          SST.get, binSearch, binSearchAux]
      · exact absurd heq h
      · simp [LSMEngine.get, MemTable.get, Block.get, List.find?, h1,
          getFromSSTs, SST.get, binSearch, binSearchAux, hgt, Nat.not_lt.mpr (Nat.le_of_lt hgt), h]

end Bunjee

namespace Bunjee

/-- C7: `get_all_records()` is strictly ascending by id and contains
exactly one record per live id; the record emitted for an id is the
memtable's (latest-written) version when the id is in the memtable,
otherwise the winner of overlaying the SSTs from oldest to newest
(`liveValue`). -/
theorem c7_getAllRecords_sorted_one_per_live_id (s : EngineState) :
    (LSMEngine.getAllRecords s).Pairwise (fun a b => a.id < b.id) ∧
    ∀ (k : Nat) (r : Record),
      (r ∈ LSMEngine.getAllRecords s ∧ r.id = k) ↔ liveValue s k = some r :=
  ⟨getAllRecords_strictSorted s, fun k r => getAllRecords_mem_iff s k r⟩

theorem compact_preserves_head (s : EngineState) (h : 3 ≤ s.sstables.length) :
    (compactSSTables s).sstables.head? = s.sstables.head? ∧
    (compactSSTables s).memtable = s.memtable ∧
    (compactSSTables s).wal = s.wal := by
  unfold compactSSTables
  cases hrev : s.sstables.reverse with
  | nil =>
    have : s.sstables = [] := by simpa using congrArg List.reverse hrev
    rw [this] at h; simp at h
  | cons s1 t =>
    cases t with
    | nil =>
      have : s.sstables = [s1] := by simpa using congrArg List.reverse hrev
      rw [this] at h; simp at h
    | cons s2 rest =>
      have hold : s.sstables = rest.reverse ++ [s2, s1] := by
        have := congrArg List.reverse hrev
        simpa using this
      have hrest : rest ≠ [] := by
        intro he
        rw [he] at hold
        rw [hold] at h
        simp at h
      have hrevne : rest.reverse ≠ [] := by simpa using hrest
      refine ⟨?_, rfl, rfl⟩
      rw [hold]
      simp only [List.reverse_cons]
      rw [List.head?_append_of_ne_nil _ hrevne]
      rw [show rest.reverse ++ [s2, s1] = rest.reverse ++ [s2] ++ [s1] by simp,
        List.head?_append_of_ne_nil _ (by simp [hrevne] : rest.reverse ++ [s2] ≠ []),
        List.head?_append_of_ne_nil _ hrevne]

/-- C6 (amended): a `flush()` on a **non-empty** memtable succeeds with the
former memtable records stored (id-sorted) in a new SST at the front of
the SST list, the memtable left empty and the WAL truncated to empty; on
an empty memtable `flush()` is a no-op that leaves the WAL untouched (see
the counterexample for the original claim). -/
theorem c6_flush_nonempty_memtable (s : EngineState) (hwal : s.walBroken = false)
    (hne : s.memtable.data ≠ []) :
    (LSMEngine.flush s).2 = .ok () ∧
    (LSMEngine.flush s).1.memtable.data = [] ∧
    (LSMEngine.flush s).1.wal = [] ∧
    (LSMEngine.flush s).1.sstables.head? = some (sortById s.memtable.data) ∧
    (sortById s.memtable.data).Perm s.memtable.data := by
  have hperm := sortById_perm s.memtable.data
  have hemp : s.memtable.data.isEmpty = false := by
    cases hd : s.memtable.data with
    | nil => exact absurd hd hne
    | cons a t => rfl
  unfold LSMEngine.flush flushMemtable
  rw [flushToBlock_eq, hemp]
  simp only [Bool.false_eq_true, if_false]
  rw [createFromBlock_eq]
  simp only [hwal, Bool.false_eq_true, if_false]
  by_cases hlen : 4 < (sortById s.memtable.data :: s.sstables).length
  · rw [if_pos hlen]
    have hlen3 : 3 ≤ ((sortById s.memtable.data :: s.sstables) : List SST).length := by
      omega
    have hc := compact_preserves_head
      { memtable := { data := [], maxSize := s.memtable.maxSize },
        wal := [], walBroken := false,
        sstables := sortById s.memtable.data :: s.sstables,
        nextSstId := (s.nextSstId + 1) % 2 ^ 64 } hlen3
    refine ⟨rfl, ?_, ?_, ?_, hperm⟩
    · rw [hc.2.1]
    · rw [hc.2.2]
    · rw [hc.1]
      rfl
  · rw [if_neg hlen]
    exact ⟨rfl, rfl, rfl, rfl, hperm⟩

/-- C6 counterexample: an engine state with an **empty memtable but a
non-empty WAL** (reached by insert then delete of id 1) on which `flush()`
succeeds yet leaves the WAL non-empty — refuting the claim's "including
the case where the memtable was already empty but the WAL is non-empty". -/
theorem c6_empty_memtable_flush_keeps_wal :
    (LSMEngine.delete (LSMEngine.insert (freshEngine 10) ⟨1, [1]⟩).1 1).1.memtable.data
       = [] ∧
    (LSMEngine.flush
        (LSMEngine.delete (LSMEngine.insert (freshEngine 10) ⟨1, [1]⟩).1 1).1).2
       = .ok () ∧
    (LSMEngine.flush
        (LSMEngine.delete (LSMEngine.insert (freshEngine 10) ⟨1, [1]⟩).1 1).1).1.wal
       = [WalEntry.ins ⟨1, [1]⟩, WalEntry.del 1] :=
  ⟨rfl, rfl, rfl⟩

/-- Witness for C6 (amended) at the concrete post-insert state. -/
theorem c6_flush_witness :
    (LSMEngine.flush
        { memtable := { data := [⟨1, [1]⟩], maxSize := 10 },
          wal := [WalEntry.ins ⟨1, [1]⟩], walBroken := false, sstables := [],
          nextSstId := 1 }).2 = .ok () ∧
    (LSMEngine.flush
        { memtable := { data := [⟨1, [1]⟩], maxSize := 10 },
          wal := [WalEntry.ins ⟨1, [1]⟩], walBroken := false, sstables := [],
          nextSstId := 1 }).1.memtable.data = [] ∧
    (LSMEngine.flush
        { memtable := { data := [⟨1, [1]⟩], maxSize := 10 },
          wal := [WalEntry.ins ⟨1, [1]⟩], walBroken := false, sstables := [],
          nextSstId := 1 }).1.wal = [] ∧
    (LSMEngine.flush
        { memtable := { data := [⟨1, [1]⟩], maxSize := 10 },
          wal := [WalEntry.ins ⟨1, [1]⟩], walBroken := false, sstables := [],
          nextSstId := 1 }).1.sstables.head?
      = some (sortById [⟨1, [1]⟩]) ∧
    (sortById [(⟨1, [1]⟩ : Record)]).Perm [⟨1, [1]⟩] :=
  c6_flush_nonempty_memtable _ rfl (by decide)

end Bunjee

namespace Bunjee

/-! ## Binary search lemmas -/

theorem binSearchAux_some {recs : List Record} {id : Nat} :
    ∀ {fuel lo hi i : Nat}, binSearchAux recs id lo hi fuel = some i →
      ∃ r, recs.get? i = some r ∧ r.id = id := by
  intro fuel
  induction fuel with
  | zero => intro lo hi i h; simp [binSearchAux] at h
  | succ n ih =>
    intro lo hi i h
    rw [binSearchAux] at h
    by_cases hlh : lo < hi
    · rw [if_pos hlh] at h
      split at h
      · exact absurd h (by simp)
      · rename_i r hg
        by_cases h1 : r.id < id
        · rw [if_pos h1] at h; exact ih h
        · rw [if_neg h1] at h
          by_cases h2 : id < r.id
          · rw [if_pos h2] at h; exact ih h
          · rw [if_neg h2] at h
            have hi2 : lo + (hi - lo) / 2 = i := by
              simpa using h
            refine ⟨r, hi2 ▸ hg, ?_⟩
            omega
    · rw [if_neg hlh] at h; exact absurd h (by simp)

theorem binSearchAux_none {recs : List Record} {id : Nat}
    (hsort : recs.Pairwise recLE) :
    ∀ fuel lo hi, hi ≤ recs.length → hi - lo ≤ fuel →
      binSearchAux recs id lo hi fuel = none →
      ∀ i, lo ≤ i → i < hi → ∀ r, recs.get? i = some r → r.id ≠ id := by
  have hmono : ∀ (i j : Nat), i ≤ j → ∀ (hj : j < recs.length) (ri rj : Record),
      recs.get? i = some ri → recs.get? j = some rj → ri.id ≤ rj.id := by
    intro i j hij hj ri rj hgi hgj
    rcases Nat.eq_or_lt_of_le hij with he | hlt
    · subst he; rw [hgi] at hgj; cases hgj; exact Nat.le_refl _
    · have hi' : i < recs.length := Nat.lt_of_lt_of_le hlt (Nat.le_of_lt hj)
      have := (List.pairwise_iff_getElem.mp hsort) i j hi' hj hlt
      rw [List.get?_eq_getElem?] at hgi hgj
      rw [List.getElem?_eq_getElem hi'] at hgi
      rw [List.getElem?_eq_getElem hj] at hgj
      cases hgi; cases hgj
      exact this
  intro fuel
  induction fuel with
  | zero =>
    intro lo hi hlen hfuel h i hlo hhi r hget
    omega
  | succ n ih =>
    intro lo hi hlen hfuel h i hlo hhi r hget
    rw [binSearchAux] at h
    have hlh : lo < hi := Nat.lt_of_le_of_lt hlo hhi
    rw [if_pos hlh] at h
    have hmidlt : lo + (hi - lo) / 2 < hi := by omega
    have hmidlen : lo + (hi - lo) / 2 < recs.length := Nat.lt_of_lt_of_le hmidlt hlen
    split at h
    · rename_i hg
      rw [List.get?_eq_getElem?, List.getElem?_eq_none_iff] at hg
      omega
    · rename_i rm hg
      by_cases h1 : rm.id < id
      · rw [if_pos h1] at h
        by_cases hcase : lo + (hi - lo) / 2 + 1 ≤ i
        · exact ih (lo + (hi - lo) / 2 + 1) hi hlen (by omega) h i hcase hhi r hget
        · have hile : i ≤ lo + (hi - lo) / 2 := by omega
          have := hmono i (lo + (hi - lo) / 2) hile hmidlen r rm hget hg
          omega
      · rw [if_neg h1] at h
        by_cases h2 : id < rm.id
        · rw [if_pos h2] at h
          by_cases hcase : i < lo + (hi - lo) / 2
          · exact ih lo (lo + (hi - lo) / 2) (by omega) (by omega) h i hlo hcase r hget
          · have hile : lo + (hi - lo) / 2 ≤ i := by omega
            have hilen : i < recs.length := Nat.lt_of_lt_of_le hhi hlen
            have := hmono (lo + (hi - lo) / 2) i hile hilen rm r hg hget
            omega
        · rw [if_neg h2] at h
          exact absurd h (by simp)

theorem sstGet_finds {sst : SST} {id : Nat} (hsort : sst.Pairwise recLE)
    (hmem : ∃ r ∈ sst, r.id = id) :
    ∃ r, SST.get sst id = some r ∧ r.id = id := by
  unfold SST.get binSearch
  cases hb : binSearchAux sst id 0 sst.length sst.length with
  | none =>
    exfalso
    obtain ⟨r, hr, hrid⟩ := hmem
    obtain ⟨i, hget⟩ := List.mem_iff_get?.mp hr
    have hilen : i < sst.length := by
      rw [List.get?_eq_getElem?] at hget
      exact (List.getElem?_eq_some_iff.mp hget).1
    exact binSearchAux_none hsort sst.length 0 sst.length (Nat.le_refl _)
      (by omega) hb i (Nat.zero_le _) hilen r hget hrid
  | some i =>
    obtain ⟨r, hg, hid⟩ := binSearchAux_some hb
    refine ⟨r, ?_, hid⟩
    rw [List.get?_eq_getElem?] at hg
    simp [hg]

theorem getFromSSTs_finds {ssts : List SST} {id : Nat}
    (hsort : ∀ sst ∈ ssts, sst.Pairwise recLE)
    (hmem : ∃ sst ∈ ssts, ∃ r ∈ sst, r.id = id) :
    ∃ r, getFromSSTs ssts id = some r := by
  induction ssts with
  | nil => simp at hmem
  | cons a t ih =>
    unfold getFromSSTs
    cases hg : SST.get a id with
    | some r => exact ⟨r, rfl⟩
    | none =>
      obtain ⟨sst, hsst, hr⟩ := hmem
      rcases List.mem_cons.mp hsst with h1 | h2
      · exfalso
        subst h1
        obtain ⟨r, hr', _⟩ := sstGet_finds (hsort sst (List.mem_cons_self _ _)) hr
        rw [hg] at hr'
        exact absurd hr' (by simp)
      · exact ih (fun s hs => hsort s (List.mem_cons_of_mem _ hs)) ⟨sst, h2, hr⟩

theorem blockDelete_true_iff (l : Block) (id : Nat) :
    (Block.delete l id).2 = true ↔ ∃ r ∈ l, r.id = id := by
  induction l with
  | nil => simp [Block.delete]
  | cons a t ih =>
    by_cases h : a.id = id
    · simp [Block.delete, h]
    · have hne : ¬ ((a.id == id) = true) := by simpa using h
      simp only [Block.delete, hne, if_false]
      simp only [List.mem_cons, exists_eq_or_imp]
      rw [← ih]
      simp [h]

end Bunjee

namespace Bunjee

/-- C5: a successful `delete(id)` returns `true` iff a record with that id
was in the memtable (and only the memtable is mutated); SSTs are untouched,
and an id stored in any (id-sorted, as every engine-built SST is) SST stays
observable through `get` and `get_all_records` afterwards. -/
theorem c5_delete_removes_from_memtable_only (s : EngineState) (id : Nat)
    (hwal : s.walBroken = false)
    (hsort : ∀ sst ∈ s.sstables, sst.Pairwise recLE) :
    ((LSMEngine.delete s id).2 = .ok true ↔ ∃ r ∈ s.memtable.data, r.id = id) ∧
    (LSMEngine.delete s id).1.sstables = s.sstables ∧
    (LSMEngine.delete s id).1.memtable.data = (Block.delete s.memtable.data id).1 ∧
    ((∃ sst ∈ s.sstables, ∃ r ∈ sst, r.id = id) →
      (LSMEngine.get (LSMEngine.delete s id).1 id).isSome = true ∧
      ∃ r ∈ LSMEngine.getAllRecords (LSMEngine.delete s id).1, r.id = id) := by
  have hdel1 : (LSMEngine.delete s id).1
      = { s with
          wal := s.wal ++ [WalEntry.del id],
          memtable := { s.memtable with
                        data := (Block.delete s.memtable.data id).1 } } := by
    simp [LSMEngine.delete, walAppend, hwal, MemTable.delete]
  have hdel2 : (LSMEngine.delete s id).2
      = .ok (Block.delete s.memtable.data id).2 := by
    simp [LSMEngine.delete, walAppend, hwal, MemTable.delete]
  rw [hdel1, hdel2]
  refine ⟨?_, rfl, rfl, ?_⟩
  · rw [← blockDelete_true_iff s.memtable.data id]
    constructor
    · intro h
      simpa using h
    · intro h
      simp [h]
  · intro hmem
    constructor
    · unfold LSMEngine.get
      cases hm : MemTable.get
          { s.memtable with data := (Block.delete s.memtable.data id).1 } id with
      | some r => simp
      | none =>
        obtain ⟨r, hr⟩ := getFromSSTs_finds hsort hmem
        simp only
        rw [hr]
        rfl
    · set s' : EngineState :=
        { s with
          wal := s.wal ++ [WalEntry.del id],
          memtable := { s.memtable with
                        data := (Block.delete s.memtable.data id).1 } } with hs'
      have hlv : ∃ r, liveValue s' id = some r := by
        unfold liveValue
        cases hm : newestIn s'.memtable.data id with
        | some r => exact ⟨r, rfl⟩
        | none =>
          cases hf : newestIn s'.sstables.reverse.flatten id with
          | some r => exact ⟨r, rfl⟩
          | none =>
            exfalso
            rw [newestIn_eq_none] at hf
            obtain ⟨sst, hsst, r, hr, hrid⟩ := hmem
            refine hf r ?_ hrid
            rw [List.mem_flatten]
            refine ⟨sst, ?_, hr⟩
            rw [List.mem_reverse]
            exact hsst
      obtain ⟨r, hr⟩ := hlv
      have hmm := (getAllRecords_mem_iff s' id r).mpr hr
      exact ⟨r, hmm.1, hmm.2⟩

/-- Witness for C5 at a concrete state: memtable holds id 2, the single
(sorted) SST holds id 1; we delete id 1. -/
theorem c5_delete_witness :
    ((LSMEngine.delete
        { memtable := { data := [⟨2, [5]⟩], maxSize := 10 }, wal := [],
          walBroken := false, sstables := [[⟨1, [7]⟩]], nextSstId := 2 } 1).2
        = .ok true ↔
      ∃ r ∈ ({ data := [⟨2, [5]⟩], maxSize := 10 } : MemTable).data, r.id = 1) ∧
    (LSMEngine.delete
        { memtable := { data := [⟨2, [5]⟩], maxSize := 10 }, wal := [],
          walBroken := false, sstables := [[⟨1, [7]⟩]], nextSstId := 2 } 1).1.sstables
      = [[⟨1, [7]⟩]] ∧
    (LSMEngine.delete
        { memtable := { data := [⟨2, [5]⟩], maxSize := 10 }, wal := [],
          walBroken := false, sstables := [[⟨1, [7]⟩]], nextSstId := 2 } 1).1.memtable.data
      = (Block.delete [⟨2, [5]⟩] 1).1 ∧
    ((∃ sst ∈ ([[⟨1, [7]⟩]] : List SST), ∃ r ∈ sst, r.id = 1) →
      (LSMEngine.get (LSMEngine.delete
          { memtable := { data := [⟨2, [5]⟩], maxSize := 10 }, wal := [],
            walBroken := false, sstables := [[⟨1, [7]⟩]], nextSstId := 2 } 1).1 1).isSome
        = true ∧
      ∃ r ∈ LSMEngine.getAllRecords (LSMEngine.delete
          { memtable := { data := [⟨2, [5]⟩], maxSize := 10 }, wal := [],
            walBroken := false, sstables := [[⟨1, [7]⟩]], nextSstId := 2 } 1).1,
        r.id = 1) :=
  c5_delete_removes_from_memtable_only
    { memtable := { data := [⟨2, [5]⟩], maxSize := 10 }, wal := [],
      walBroken := false, sstables := [[⟨1, [7]⟩]], nextSstId := 2 } 1 rfl
    (by decide)

end Bunjee

namespace Bunjee

/-! ## Byte-level round trips -/

theorem length_natToBE (k : Nat) : ∀ n, (natToBE k n).length = k := by
  induction k with
  | zero => intro n; rfl
  | succ m ih => intro n; simp [natToBE, ih]

theorem bytesToBENat_concat (l : List Nat) (b : Nat) :
    bytesToBENat (l ++ [b]) = bytesToBENat l * 256 + b := by
  simp [bytesToBENat, List.foldl_append]

theorem bytesToBENat_natToBE (k : Nat) :
    ∀ n, n < 256 ^ k → bytesToBENat (natToBE k n) = n := by
  induction k with
  | zero => intro n h; interval_cases n; rfl
  | succ m ih =>
    intro n h
    rw [natToBE, bytesToBENat_concat, ih (n / 256) (by omega)]
    omega

theorem parseI64_range {v : List Nat} {n : Int} (h : parseI64 v = some n) :
    -(2 ^ 63) ≤ n ∧ n < 2 ^ 63 := by
  unfold parseI64 at h
  repeat' split at h
  all_goals simp_all
  all_goals omega

theorem length_i64ToBytes (v : Int) : (i64ToBytes v).length = 8 :=
  length_natToBE 8 _

theorem i64_roundtrip {v : Int} (h1 : -(2 ^ 63) ≤ v) (h2 : v < 2 ^ 63) :
    i64FromBytes (i64ToBytes v) = v := by
  unfold i64FromBytes i64ToBytes
  have hmod : (0 : Int) ≤ v % 2 ^ 64 ∧ v % 2 ^ 64 < 2 ^ 64 := by
    constructor <;> omega
  have hlt : (v % (2 ^ 64 : Int)).toNat < 256 ^ 8 := by
    have : (256 : Nat) ^ 8 = 2 ^ 64 := by norm_num
    omega
  rw [bytesToBENat_natToBE 8 _ hlt]
  split
  · rename_i hcase
    omega
  · rename_i hcase
    omega

theorem slice_middle (pre e suf : List Nat) :
    ((pre ++ e ++ suf).drop pre.length).take e.length = e := by
  rw [List.append_assoc, List.drop_left, List.take_left]

theorem get?_middle (pre e suf : List Nat) :
    (pre ++ e ++ suf).get? pre.length = (e ++ suf).get? 0 := by
  rw [List.append_assoc, List.get?_eq_getElem?, List.get?_eq_getElem?]
  rw [List.getElem?_append_right (Nat.le_refl _)]
  simp

end Bunjee

namespace Bunjee

theorem decodeColumn_step (fm : FloatModel) (t : ColumnType) (v pre suf e : List Nat)
    (he : convertValueToBytes fm v t = some e)
    (hsm : ∀ m, t = ColumnType.varchar m → (trimQuotes v).length < 2 ^ 32) :
    decodeColumn fm (pre ++ e ++ suf) pre.length t
      = (canonValue fm v t, pre.length + e.length) := by
  cases t with
  | integer =>
    obtain ⟨nv, hpv, rfl⟩ := Option.map_eq_some'.mp he
    have hrange := parseI64_range hpv
    have hlen := length_i64ToBytes nv
    have hdlen : (pre ++ i64ToBytes nv ++ suf).length
        = pre.length + 8 + suf.length := by simp [hlen]; omega
    have hslice : ((pre ++ i64ToBytes nv ++ suf).drop pre.length).take 8
        = i64ToBytes nv := by
      have := slice_middle pre (i64ToBytes nv) suf
      rwa [hlen] at this
    unfold decodeColumn
    rw [if_pos (by omega), hslice, i64_roundtrip hrange.1 hrange.2]
    simp [canonValue, hpv, hlen]
  | timestamp =>
    obtain ⟨nv, hpv, rfl⟩ := Option.map_eq_some'.mp he
    have hrange := parseI64_range hpv
    have hlen := length_i64ToBytes nv
    have hdlen : (pre ++ i64ToBytes nv ++ suf).length
        = pre.length + 8 + suf.length := by simp [hlen]; omega
    have hslice : ((pre ++ i64ToBytes nv ++ suf).drop pre.length).take 8
        = i64ToBytes nv := by
      have := slice_middle pre (i64ToBytes nv) suf
      rwa [hlen] at this
    unfold decodeColumn
    rw [if_pos (by omega), hslice, i64_roundtrip hrange.1 hrange.2]
    simp [canonValue, hpv, hlen]
  | float =>
    obtain ⟨bits, hpv, rfl⟩ := Option.map_eq_some'.mp he
    have hbits := fm.parse_lt v bits hpv
    have hlen := length_natToBE 8 bits
    have hdlen : (pre ++ natToBE 8 bits ++ suf).length
        = pre.length + 8 + suf.length := by simp [hlen]; omega
    have hslice : ((pre ++ natToBE 8 bits ++ suf).drop pre.length).take 8
        = natToBE 8 bits := by
      have := slice_middle pre (natToBE 8 bits) suf
      rwa [hlen] at this
    have hrt : bytesToBENat (natToBE 8 bits) = bits :=
      bytesToBENat_natToBE 8 bits (by norm_num; omega)
    unfold decodeColumn
    rw [if_pos (by omega), hslice, hrt]
    simp [canonValue, hpv, hlen]
  | boolean =>
    simp only [convertValueToBytes] at he
    split at he
    · rename_i htrue
      obtain rfl : [1] = e := by simpa using he
      have hget : (pre ++ [1] ++ suf).get? pre.length = some 1 := by
        rw [get?_middle]; rfl
      have hlt : pre.length < (pre ++ [1] ++ suf).length := by simp
      simp only [decodeColumn]
      rw [if_pos ⟨hlt, hget⟩]
      simp only [canonValue, List.length_cons, List.length_nil]
      rw [show asciiLower (trimQuotes v) = [116, 114, 117, 101] by simpa using htrue]
    · split at he
      · rename_i hfalse
        obtain rfl : [0] = e := by simpa using he
        have hget : (pre ++ [0] ++ suf).get? pre.length = some 0 := by
          rw [get?_middle]; rfl
        simp only [decodeColumn]
        rw [if_neg (by
          rintro ⟨-, hc⟩
          rw [hget] at hc
          simp at hc)]
        simp only [canonValue, List.length_cons, List.length_nil]
        rw [show asciiLower (trimQuotes v) = [102, 97, 108, 115, 101] by simpa using hfalse]
      · exact absurd he (by simp)
  | varchar maxLen =>
    have hlen32 : (trimQuotes v).length < 2 ^ 32 := hsm maxLen rfl
    simp only [convertValueToBytes] at he
    split at he
    · rename_i hle
      obtain rfl : natToBE 4 ((trimQuotes v).length % 2 ^ 32) ++ trimQuotes v = e := by
        simpa using he
      have hmod : (trimQuotes v).length % 2 ^ 32 = (trimQuotes v).length :=
        Nat.mod_eq_of_lt hlen32
      rw [hmod]
      have hlen4 := length_natToBE 4 (trimQuotes v).length
      have hdlen : (pre ++ (natToBE 4 (trimQuotes v).length ++ trimQuotes v) ++ suf).length
          = pre.length + 4 + (trimQuotes v).length + suf.length := by
        simp [hlen4]; omega
      have hassoc1 : pre ++ (natToBE 4 (trimQuotes v).length ++ trimQuotes v) ++ suf
          = pre ++ natToBE 4 (trimQuotes v).length ++ (trimQuotes v ++ suf) := by simp
      have hslice1 : ((pre ++ (natToBE 4 (trimQuotes v).length ++ trimQuotes v) ++ suf).drop
            pre.length).take 4 = natToBE 4 (trimQuotes v).length := by
        rw [hassoc1]
        have := slice_middle pre (natToBE 4 (trimQuotes v).length) (trimQuotes v ++ suf)
        rwa [hlen4] at this
      have hrt : bytesToBENat (natToBE 4 (trimQuotes v).length) = (trimQuotes v).length :=
        bytesToBENat_natToBE 4 _ (by norm_num; omega)
      have hassoc2 : pre ++ (natToBE 4 (trimQuotes v).length ++ trimQuotes v) ++ suf
          = (pre ++ natToBE 4 (trimQuotes v).length) ++ trimQuotes v ++ suf := by simp
      have hslice2 : ((pre ++ (natToBE 4 (trimQuotes v).length ++ trimQuotes v) ++ suf).drop
            (pre.length + 4)).take (trimQuotes v).length = trimQuotes v := by
        rw [hassoc2]
        have h4 : pre.length + 4 = (pre ++ natToBE 4 (trimQuotes v).length).length := by
          simp [hlen4]
        rw [h4]
        exact slice_middle (pre ++ natToBE 4 (trimQuotes v).length) (trimQuotes v) suf
      simp only [decodeColumn]
      rw [if_pos (by omega), hslice1, hrt, if_pos (by omega), hslice2]
      simp [canonValue, hlen4]
      omega
    · exact absurd he (by simp)

theorem decodeRow_encodeRow (fm : FloatModel) :
    ∀ (schema : List ColumnType) (row : List (List Nat)) (pre payload suf : List Nat),
      encodeRow fm schema row = some payload →
      varcharSmall schema row = true →
      decodeRow fm (pre ++ payload ++ suf) pre.length schema
        = List.zipWith (fun t v => canonValue fm v t) schema row := by
  intro schema
  induction schema with
  | nil =>
    intro row pre payload suf henc hsmall
    cases row with
    | nil =>
      obtain rfl : [] = payload := by simpa [encodeRow] using henc
      rfl
    | cons v vs => simp [encodeRow] at henc
  | cons t ts ih =>
    intro row pre payload suf henc hsmall
    cases row with
    | nil => simp [encodeRow] at henc
    | cons v vs =>
      simp only [encodeRow] at henc
      cases he : convertValueToBytes fm v t with
      | none => rw [he] at henc; simp at henc
      | some e =>
        rw [he] at henc
        cases hr : encodeRow fm ts vs with
        | none => rw [hr] at henc; simp at henc
        | some rest =>
          rw [hr] at henc
          obtain rfl : e ++ rest = payload := by simpa using henc
          have hsm : ∀ m, t = ColumnType.varchar m → (trimQuotes v).length < 2 ^ 32 := by
            intro m hm
            subst hm
            have := hsmall
            unfold varcharSmall at this
            exact of_decide_eq_true (Bool.and_elim_left this)
          have hsmall' : varcharSmall ts vs = true := by
            cases t <;> unfold varcharSmall at hsmall <;>
              first
                | exact hsmall
                | exact Bool.and_elim_right hsmall
          have hassoc : pre ++ (e ++ rest) ++ suf = pre ++ e ++ (rest ++ suf) := by simp
          rw [hassoc]
          simp only [decodeRow]
          rw [decodeColumn_step fm t v pre (rest ++ suf) e he hsm]
          have hoff : pre.length + e.length = (pre ++ e).length := by simp
          have hassoc2 : pre ++ e ++ (rest ++ suf) = (pre ++ e) ++ rest ++ suf := by simp
          rw [hoff, hassoc2, ih vs (pre ++ e) rest suf hr hsmall']
          rfl

end Bunjee

namespace Bunjee

theorem convert_isSome (fm : FloatModel) (t : ColumnType) (v : List Nat)
    (h : validateValue fm v t = true) :
    ∃ e, convertValueToBytes fm v t = some e := by
  cases t with
  | integer =>
    simp only [validateValue, Option.isSome_iff_exists] at h
    obtain ⟨n, hn⟩ := h
    exact ⟨i64ToBytes n, by simp [convertValueToBytes, hn]⟩
  | float =>
    simp only [validateValue, Option.isSome_iff_exists] at h
    obtain ⟨n, hn⟩ := h
    exact ⟨natToBE 8 n, by simp [convertValueToBytes, hn]⟩
  | varchar maxLen =>
    simp only [validateValue, decide_eq_true_eq] at h
    exact ⟨natToBE 4 ((trimQuotes v).length % 2 ^ 32) ++ trimQuotes v,
      by simp [convertValueToBytes, h]⟩
  | boolean =>
    simp only [validateValue, Bool.or_eq_true] at h
    rcases h with h | h
    · exact ⟨[1], by simp only [convertValueToBytes, h]; rfl⟩
    · refine ⟨if asciiLower (trimQuotes v) == [116, 114, 117, 101] then [1] else [0], ?_⟩
      by_cases ht : asciiLower (trimQuotes v) == [116, 114, 117, 101]
      · simp only [convertValueToBytes, ht]; rfl
      · simp only [convertValueToBytes, Bool.not_eq_true] at ht
        simp only [convertValueToBytes, ht, h]
        rfl
  | timestamp =>
    simp only [validateValue, Option.isSome_iff_exists] at h
    obtain ⟨n, hn⟩ := h
    exact ⟨i64ToBytes n, by simp [convertValueToBytes, hn]⟩

theorem encodeRow_isSome (fm : FloatModel) :
    ∀ (schema : List ColumnType) (row : List (List Nat)),
      rowValid fm schema row = true →
      ∃ payload, encodeRow fm schema row = some payload := by
  intro schema
  induction schema with
  | nil =>
    intro row h
    cases row with
    | nil => exact ⟨[], rfl⟩
    | cons v vs => simp [rowValid] at h
  | cons t ts ih =>
    intro row h
    cases row with
    | nil => simp [rowValid] at h
    | cons v vs =>
      simp only [rowValid, Bool.and_eq_true] at h
      obtain ⟨e, he⟩ := convert_isSome fm t v h.1
      obtain ⟨rest, hr⟩ := ih vs h.2
      exact ⟨e ++ rest, by simp [encodeRow, he, hr]⟩

/-- C9 counterexample: the integer value `"+1"` (bytes `[43, 49]`)
satisfies its column's type constraint and is untouched by the claim's
stated canonicalizations (no surrounding quotes, not a boolean), yet
decoding its encoding yields `"1"`, not `"+1"`. -/
theorem c9_plus_prefixed_integer_not_restored :
    validateValue fmTrivial [43, 49] ColumnType.integer = true ∧
    trimQuotes [43, 49] = [43, 49] ∧
    encodeRow fmTrivial [ColumnType.integer] [[43, 49]] = some [0, 0, 0, 0, 0, 0, 0, 1] ∧
    decodeRow fmTrivial [0, 0, 0, 0, 0, 0, 0, 1] 0 [ColumnType.integer] = [[49]] ∧
    ([[49]] : List (List Nat)) ≠ [[43, 49]] :=
  ⟨rfl, rfl, rfl, rfl, by decide⟩

/-- C9 (amended): for every float model, schema, and row of values each
satisfying its column's type constraint (with varchar values shorter than
2^32 bytes after quote-stripping, below the encoder's `as u32` cast),
encoding succeeds and decoding the concatenated payload returns each value
in canonical form: quotes stripped for varchar, quotes stripped and
lowercased for boolean, and numeric values (integer, float, timestamp)
re-rendered from their parsed form. -/
theorem c9_codec_round_trip_canonical (fm : FloatModel) (schema : List ColumnType)
    (row : List (List Nat)) (hval : rowValid fm schema row = true)
    (hsmall : varcharSmall schema row = true) :
    ∃ payload, encodeRow fm schema row = some payload ∧
      decodeRow fm payload 0 schema
        = List.zipWith (fun t v => canonValue fm v t) schema row := by
  obtain ⟨payload, hp⟩ := encodeRow_isSome fm schema row hval
  refine ⟨payload, hp, ?_⟩
  have h := decodeRow_encodeRow fm schema row [] payload [] hp hsmall
  simpa using h

/-- Witness for C9 (amended) on the row
`(7, 'ab', TRUE, 9) : (integer, varchar 5, boolean, timestamp)`. -/
theorem c9_codec_round_trip_witness :
    ∃ payload,
      encodeRow fmTrivial [ColumnType.integer, ColumnType.varchar 5,
          ColumnType.boolean, ColumnType.timestamp]
        [[55], [39, 97, 98, 39], [84, 82, 85, 69], [57]] = some payload ∧
      decodeRow fmTrivial payload 0
          [ColumnType.integer, ColumnType.varchar 5, ColumnType.boolean,
            ColumnType.timestamp]
        = List.zipWith (fun t v => canonValue fmTrivial v t)
            [ColumnType.integer, ColumnType.varchar 5, ColumnType.boolean,
              ColumnType.timestamp]
            [[55], [39, 97, 98, 39], [84, 82, 85, 69], [57]] :=
  c9_codec_round_trip_canonical fmTrivial _ _ rfl rfl

end Bunjee
